import Mathlib

set_option autoImplicit false

/-!
Verification development for the cascade environment manager.

A Go `map[string]string` is modelled as an association list together with
its first-match lookup function; equality of maps is stated extensionally
through `Env.get`.  Go's iteration over a map touches every key exactly
once, which the `Nodup` hypotheses on key lists reflect.
-/

namespace Cascade

/-- Contents of a Go `map[string]string` (package env, `type Env map[string]string`),
listed in some order. -/
abbrev Env := List (String × String)

/-- Map lookup: the value stored for `k`, or `none` when `k` is absent. -/
def Env.get : Env → String → Option String
  | [], _ => none
  | p :: rest, k => if p.1 = k then some p.2 else Env.get rest k

/-- The key list of an environment. -/
def Env.keys (e : Env) : List String := e.map Prod.fst

/-- Deleting a key, the effect of Go `delete(m, k)`. -/
def Env.del : Env → String → Env
  | [], _ => []
  | p :: rest, k => if p.1 = k then Env.del rest k else p :: Env.del rest k

/-- Setting a key, the effect of Go `m[k] = v`. -/
def Env.set (e : Env) (k v : String) : Env :=
  e.del k ++ [(k, v)]

/-- `ignoredKeys` from internal/env/ignore.go. -/
def ignoredKeys : List String := ["PWD", "OLDPWD", "SHLVL", "_", "TERM_SESSION_ID"]

/-- `IgnoredEnv` from internal/env/ignore.go: shell-managed keys plus every
key starting with `CASCADE_` (Go `strings.HasPrefix`, a byte-level prefix
test, is the character-level prefix test on valid UTF-8). -/
def IgnoredEnv (key : String) : Bool :=
  ignoredKeys.contains key || "CASCADE_".data.isPrefixOf key.data

/-- `Env.Filtered` from internal/env/env.go: drop every ignored key. -/
def Env.Filtered : Env → Env
  | [] => []
  | p :: rest => if IgnoredEnv p.1 then Env.Filtered rest else p :: Env.Filtered rest

/-- `EnvDiff` from internal/env (`Prev`/`Next` maps over the same key set). -/
structure EnvDiff where
  prev : Env
  next : Env
  deriving Repr, DecidableEq

/-- `BuildEnvDiff(e1, e2)` from internal/env: filter both, then the first loop
over `f1 = e1.Filtered` records changed keys (`Prev`=old, `Next`=new) and
removed keys (`Prev`=old, `Next`=""), and the second loop over
`f2 = e2.Filtered` records added keys (`Prev`="", `Next`=new). -/
def BuildEnvDiff (e1 e2 : Env) : EnvDiff where
  prev :=
    (e1.Filtered.filterMap (fun p =>
      match e2.Filtered.get p.1 with
      | some v2 => if p.2 ≠ v2 then some (p.1, p.2) else none
      | none => some (p.1, p.2)))
    ++ (e2.Filtered.filterMap (fun p =>
      match e1.Filtered.get p.1 with
      | some _ => none
      | none => some (p.1, "")))
  next :=
    (e1.Filtered.filterMap (fun p =>
      match e2.Filtered.get p.1 with
      | some v2 => if p.2 ≠ v2 then some (p.1, v2) else none
      | none => some (p.1, "")))
    ++ (e2.Filtered.filterMap (fun p =>
      match e1.Filtered.get p.1 with
      | some _ => none
      | none => some (p.1, p.2)))

/-- `EnvDiff.Patch` from internal/env: copy the environment, then for every
key of `Next` delete it (empty value) or set it. -/
def EnvDiff.Patch (d : EnvDiff) (e : Env) : Env :=
  d.next.foldl (fun acc p => if p.2 = "" then acc.del p.1 else acc.set p.1 p.2) e

/-- `EnvDiff.Reverse` from internal/env: swap `Prev` and `Next`. -/
def EnvDiff.Reverse (d : EnvDiff) : EnvDiff :=
  ⟨d.next, d.prev⟩

/-- `EnvDiff.IsEmpty` from internal/env: both maps empty. -/
def EnvDiff.IsEmpty (d : EnvDiff) : Bool :=
  d.next.isEmpty && d.prev.isEmpty

theorem Env.get_del (e : Env) (k k' : String) :
    (e.del k).get k' = if k' = k then none else e.get k' := by
  induction e with
  | nil => simp [Env.del, Env.get]
  | cons p rest ih =>
    by_cases hpk : p.1 = k
    · rw [show Env.del (p :: rest) k = Env.del rest k by simp [Env.del, hpk]]
      rw [ih]
      by_cases hk : k' = k
      · simp [hk]
      · have hpk' : ¬p.1 = k' := fun h => hk (by rw [← h, hpk])
        simp [Env.get, hk, hpk']
    · rw [show Env.del (p :: rest) k = p :: Env.del rest k by simp [Env.del, hpk]]
      by_cases hpk' : p.1 = k'
      · have hk : ¬k' = k := fun h => hpk (by rw [hpk', h])
        simp [Env.get, hpk', hk]
      · simp [Env.get, hpk', ih]

theorem Env.get_append (a b : Env) (k : String) :
    (a ++ b).get k = ((a.get k).orElse (fun _ => b.get k)) := by
  induction a with
  | nil => simp [Env.get]
  | cons p rest ih =>
    by_cases h : p.1 = k <;> simp [Env.get, h, ih]

theorem Env.get_set (e : Env) (k v : String) (k' : String) :
    (e.set k v).get k' = if k' = k then some v else e.get k' := by
  unfold Env.set
  rw [Env.get_append, Env.get_del]
  by_cases h : k' = k
  · simp [Env.get, h]
  · have h2 : ¬k = k' := fun hh => h hh.symm
    simp only [if_neg h, Env.get, if_neg h2]
    cases e.get k' <;> simp [Option.orElse]

theorem Env.get_filtered (e : Env) (k : String) :
    e.Filtered.get k = if IgnoredEnv k then none else e.get k := by
  induction e with
  | nil => simp [Env.Filtered, Env.get]
  | cons p rest ih =>
    by_cases hig : IgnoredEnv p.1
    · by_cases hpk : p.1 = k
      · simp [Env.Filtered, Env.get, hig, hpk, ih, hpk ▸ hig]
      · simp [Env.Filtered, Env.get, hig, hpk, ih]
    · by_cases hpk : p.1 = k
      · simp [Env.Filtered, Env.get, hig, hpk, hpk ▸ hig]
      · simp [Env.Filtered, Env.get, hig, hpk, ih]

theorem Env.get_eq_none_iff (e : Env) (k : String) :
    e.get k = none ↔ k ∉ e.keys := by
  induction e with
  | nil => simp [Env.get, Env.keys]
  | cons p rest ih =>
    by_cases hpk : p.1 = k
    · simp [Env.get, Env.keys, hpk]
    · have hkp : ¬k = p.1 := fun h => hpk h.symm
      rw [show Env.get (p :: rest) k = Env.get rest k by simp [Env.get, hpk]]
      rw [ih]
      simp [Env.keys, hkp]

theorem Env.get_of_mem_nodup (e : Env) (p : String × String)
    (hn : e.keys.Nodup) (hm : p ∈ e) : e.get p.1 = some p.2 := by
  induction e with
  | nil => simp at hm
  | cons q rest ih =>
    have hq := List.nodup_cons.mp hn
    rcases List.mem_cons.mp hm with h | h
    · subst h; simp [Env.get]
    · have hne : ¬q.1 = p.1 := by
        intro heq
        exact hq.1 (heq ▸ List.mem_map_of_mem Prod.fst h)
      simp [Env.get, hne, ih hq.2 h]

/-- The effect on lookup of the Go loop `for key, value := range next { ... }`
inside `Patch`, for a `next` map with no duplicate key (as Go maps have). -/
theorem Env.get_applyNext (l : List (String × String)) (e : Env)
    (hn : (l.map Prod.fst).Nodup) (k : String) :
    (l.foldl (fun acc p => if p.2 = "" then Env.del acc p.1 else Env.set acc p.1 p.2) e).get k
      = match Env.get l k with
        | some v => if v = "" then none else some v
        | none => e.get k := by
  induction l generalizing e with
  | nil => simp [Env.get]
  | cons p rest ih =>
    have hsplit := List.nodup_cons.mp hn
    rw [List.foldl_cons, ih _ hsplit.2]
    by_cases hpk : p.1 = k
    · subst hpk
      have hrest : Env.get rest p.1 = none :=
        (Env.get_eq_none_iff rest p.1).mpr (by
          intro hmem
          exact hsplit.1 (by simpa [Env.keys] using hmem))
      rw [hrest]
      by_cases hv : p.2 = "" <;>
        simp [Env.get, hv, Env.get_del, Env.get_set]
    · rw [show Env.get (p :: rest) k = Env.get rest k by simp [Env.get, hpk]]
      cases hrk : Env.get rest k with
      | some v => rfl
      | none =>
        have hkp : ¬k = p.1 := fun h => hpk h.symm
        by_cases hv : p.2 = "" <;>
          simp [hv, Env.get_del, Env.get_set, hkp]

theorem EnvDiff.get_patch (d : EnvDiff) (e : Env)
    (hn : (d.next.map Prod.fst).Nodup) (k : String) :
    (d.Patch e).get k
      = match d.next.get k with
        | some v => if v = "" then none else some v
        | none => e.get k :=
  Env.get_applyNext d.next e hn k

/-- Well-formedness of a diff relative to the environment it is applied to:
`Prev` and `Next` cover the same keys (they are built in lock-step by
`BuildEnvDiff`), and `Prev` records exactly the state of `e` at each key,
with the empty string as the sentinel for an absent variable. -/
def EnvDiff.WellFormedFor (d : EnvDiff) (e : Env) : Prop :=
  (∀ k, (d.prev.get k).isSome ↔ (d.next.get k).isSome) ∧
  (∀ k v, d.prev.get k = some v →
    if v = "" then e.get k = none else e.get k = some v)

/-- C2 — Diff round-trip: for every environment `e` and every diff that is
well-formed for `e` (same key set in `Prev`/`Next`, duplicate-free keys as in
a Go map, and `Prev` recording the state of `e`), applying the diff and then
the reversed diff restores `e`: `Reverse(diff).Patch(diff.Patch(e)) = e`
as maps. -/
theorem c2_diff_round_trip (d : EnvDiff) (e : Env)
    (hnp : (d.prev.map Prod.fst).Nodup) (hnn : (d.next.map Prod.fst).Nodup)
    (hwf : d.WellFormedFor e) :
    ∀ k, (d.Reverse.Patch (d.Patch e)).get k = e.get k := by
  intro k
  have hrev : d.Reverse.next = d.prev := rfl
  rw [EnvDiff.get_patch d.Reverse (d.Patch e) (by rw [hrev]; exact hnp) k, hrev]
  cases hp : d.prev.get k with
  | some v =>
    have hev := hwf.2 k v hp
    by_cases hv : v = ""
    · rw [if_pos hv] at hev
      simp [hv, hev]
    · rw [if_neg hv] at hev
      simp [hv, hev]
  | none =>
    have hnone : d.next.get k = none := by
      have h1 := hwf.1 k
      rw [hp] at h1
      simp only [Option.isSome_none, Bool.false_eq_true, false_iff] at h1
      cases hnx : d.next.get k with
      | some v => rw [hnx] at h1; simp at h1
      | none => rfl
    rw [EnvDiff.get_patch d e hnn k, hnone]

/-- Witness for C2 at the diff `{X: old -> new}` applied to `{X=old}`. -/
theorem c2_diff_round_trip_witness :
    (EnvDiff.Patch (EnvDiff.Reverse ⟨[("X", "old")], [("X", "new")]⟩)
      (EnvDiff.Patch ⟨[("X", "old")], [("X", "new")]⟩ [("X", "old")])).get "X"
      = Env.get [("X", "old")] "X" := by
  refine c2_diff_round_trip ⟨[("X", "old")], [("X", "new")]⟩ [("X", "old")]
    (by decide) (by decide) ⟨?_, ?_⟩ "X"
  · intro k
    by_cases h : "X" = k <;> simp [Env.get, h]
  · intro k v hv
    by_cases h : "X" = k
    · rw [show Env.get [("X", "old")] k = some "old" by simp [Env.get, h]] at hv
      cases hv
      simp [Env.get, h]
    · rw [show Env.get [("X", "old")] k = none by simp [Env.get, h]] at hv
      cases hv

theorem Env.get_filterMap (g : String × String → Option (String × String))
    (hg : ∀ p q, g p = some q → q.1 = p.1) (e : Env)
    (he : (e.map Prod.fst).Nodup) (k : String) :
    Env.get (e.filterMap g) k
      = match e.get k with
        | some v => (g (k, v)).map (fun q => q.2)
        | none => (none : Option String) := by
  induction e with
  | nil => simp [Env.get]
  | cons p rest ih =>
    have hsplit := List.nodup_cons.mp he
    cases hgp : g p with
    | none =>
      rw [List.filterMap_cons_none hgp, ih hsplit.2]
      by_cases hpk : p.1 = k
      · have hrest : Env.get rest k = none :=
          (Env.get_eq_none_iff rest k).mpr (by
            intro hm
            exact hsplit.1 (by rw [hpk]; exact hm))
        have hkp : (k, p.2) = p := by rw [← hpk]
        rw [hrest, show Env.get (p :: rest) k = some p.2 by simp [Env.get, hpk]]
        simp [hkp, hgp]
      · rw [show Env.get (p :: rest) k = Env.get rest k by simp [Env.get, hpk]]
    | some q =>
      have hq1 : q.1 = p.1 := hg p q hgp
      rw [List.filterMap_cons_some hgp]
      by_cases hpk : p.1 = k
      · have hkp : (k, p.2) = p := by rw [← hpk]
        rw [show Env.get (q :: List.filterMap g rest) k = some q.2 by
              simp [Env.get, hq1, hpk]]
        rw [show Env.get (p :: rest) k = some p.2 by simp [Env.get, hpk]]
        simp [hkp, hgp]
      · have hqk : ¬q.1 = k := by rw [hq1]; exact hpk
        rw [show Env.get (q :: List.filterMap g rest) k
              = Env.get (List.filterMap g rest) k by simp [Env.get, hqk]]
        rw [show Env.get (p :: rest) k = Env.get rest k by simp [Env.get, hpk]]
        exact ih hsplit.2

theorem Env.keys_filterMap_sublist (g : String × String → Option (String × String))
    (hg : ∀ p q, g p = some q → q.1 = p.1) (e : Env) :
    ((e.filterMap g).map Prod.fst).Sublist (e.map Prod.fst) := by
  induction e with
  | nil => simp
  | cons p rest ih =>
    cases hgp : g p with
    | none =>
      rw [List.filterMap_cons_none hgp]
      exact ih.cons p.1
    | some q =>
      rw [List.filterMap_cons_some hgp]
      simp only [List.map_cons]
      rw [hg p q hgp]
      exact ih.cons₂ p.1

theorem Env.Filtered_sublist (e : Env) : e.Filtered.Sublist e := by
  induction e with
  | nil => simp [Env.Filtered]
  | cons p rest ih =>
    by_cases hig : IgnoredEnv p.1
    · rw [show Env.Filtered (p :: rest) = Env.Filtered rest by
            simp [Env.Filtered, hig]]
      exact ih.cons p
    · rw [show Env.Filtered (p :: rest) = p :: Env.Filtered rest by
            simp [Env.Filtered, hig]]
      exact ih.cons₂ p

theorem Env.filtered_keys_nodup (e : Env) (he : (e.map Prod.fst).Nodup) :
    (e.Filtered.map Prod.fst).Nodup :=
  ((Env.Filtered_sublist e).map Prod.fst).nodup he

/-- Key preservation of the `Next`-building mapper of the first loop of
`BuildEnvDiff`. -/
theorem buildDiff_keyA (f2 : Env) (p q : String × String)
    (hq : (match f2.get p.1 with
           | some v2 => if p.2 ≠ v2 then some (p.1, v2) else none
           | none => some (p.1, "")) = some q) : q.1 = p.1 := by
  revert hq
  cases f2.get p.1 with
  | some v2 =>
    by_cases hv : p.2 ≠ v2
    · simp only [if_pos hv]
      intro hq
      cases hq
      rfl
    · simp [if_neg hv]
  | none =>
    intro hq
    cases hq
    rfl

/-- Key preservation of the `Prev`-building mapper of the first loop of
`BuildEnvDiff`. -/
theorem buildDiff_keyA' (f2 : Env) (p q : String × String)
    (hq : (match f2.get p.1 with
           | some v2 => if p.2 ≠ v2 then some (p.1, p.2) else none
           | none => some (p.1, p.2)) = some q) : q.1 = p.1 := by
  revert hq
  cases f2.get p.1 with
  | some v2 =>
    by_cases hv : p.2 ≠ v2
    · simp only [if_pos hv]
      intro hq
      cases hq
      rfl
    · simp [if_neg hv]
  | none =>
    intro hq
    cases hq
    rfl

/-- Key preservation of the `Next`-building mapper of the second loop of
`BuildEnvDiff`. -/
theorem buildDiff_keyB (f1 : Env) (p q : String × String)
    (hq : (match f1.get p.1 with
           | some _ => none
           | none => some (p.1, p.2)) = some q) : q.1 = p.1 := by
  revert hq
  cases f1.get p.1 with
  | some v => simp
  | none =>
    intro hq
    cases hq
    rfl

/-- Key preservation of the `Prev`-building mapper of the second loop of
`BuildEnvDiff`. -/
theorem buildDiff_keyB' (f1 : Env) (p q : String × String)
    (hq : (match f1.get p.1 with
           | some _ => none
           | none => some (p.1, "")) = some q) : q.1 = p.1 := by
  revert hq
  cases f1.get p.1 with
  | some v => simp
  | none =>
    intro hq
    cases hq
    rfl

theorem buildDiff_next_get (e1 e2 : Env)
    (h1 : (e1.map Prod.fst).Nodup) (h2 : (e2.map Prod.fst).Nodup) (k : String) :
    (BuildEnvDiff e1 e2).next.get k
      = match Env.get e1.Filtered k, Env.get e2.Filtered k with
        | some v1, some v2 => if v1 ≠ v2 then some v2 else none
        | some _, none => some ""
        | none, some v2 => some v2
        | none, none => none := by
  have hf1 := Env.filtered_keys_nodup e1 h1
  have hf2 := Env.filtered_keys_nodup e2 h2
  have eA := Env.get_filterMap (fun p =>
      match Env.get (Env.Filtered e2) p.1 with
      | some v2 => if p.2 ≠ v2 then some (p.1, v2) else none
      | none => some (p.1, "")) (buildDiff_keyA e2.Filtered) e1.Filtered hf1 k
  have eB := Env.get_filterMap (fun p =>
      match Env.get (Env.Filtered e1) p.1 with
      | some _ => none
      | none => some (p.1, p.2)) (buildDiff_keyB e1.Filtered) e2.Filtered hf2 k
  rw [show (BuildEnvDiff e1 e2).next
        = (e1.Filtered.filterMap (fun p =>
            match e2.Filtered.get p.1 with
            | some v2 => if p.2 ≠ v2 then some (p.1, v2) else none
            | none => some (p.1, "")))
          ++ (e2.Filtered.filterMap (fun p =>
            match e1.Filtered.get p.1 with
            | some _ => none
            | none => some (p.1, p.2))) from rfl]
  rw [Env.get_append, eA, eB]
  cases ha : Env.get (Env.Filtered e1) k <;> cases hb : Env.get (Env.Filtered e2) k
  · simp [Option.orElse, ha, hb]
  · simp [Option.orElse, ha, hb]
  · simp [Option.orElse, ha, hb]
  · rename_i v1 v2
    by_cases hv : v1 = v2
    · simp [Option.orElse, ha, hb, hv]
    · simp [Option.orElse, ha, hb, hv]

/-- Inversion of the `Next`-building mapper of the second loop of
`BuildEnvDiff`: an entry is produced only for keys absent from `f1`. -/
theorem buildDiff_invB (f1 : Env) (p q : String × String)
    (hq : (match f1.get p.1 with
           | some _ => none
           | none => some (p.1, p.2)) = some q) :
    f1.get p.1 = none ∧ q = (p.1, p.2) := by
  revert hq
  cases hh : f1.get p.1 with
  | some v => simp
  | none =>
    intro hq
    cases hq
    exact ⟨rfl, rfl⟩

theorem buildDiff_next_keys_nodup (e1 e2 : Env)
    (h1 : (e1.map Prod.fst).Nodup) (h2 : (e2.map Prod.fst).Nodup) :
    ((BuildEnvDiff e1 e2).next.map Prod.fst).Nodup := by
  have hf1 := Env.filtered_keys_nodup e1 h1
  have hf2 := Env.filtered_keys_nodup e2 h2
  rw [show (BuildEnvDiff e1 e2).next
        = (e1.Filtered.filterMap (fun p =>
            match e2.Filtered.get p.1 with
            | some v2 => if p.2 ≠ v2 then some (p.1, v2) else none
            | none => some (p.1, "")))
          ++ (e2.Filtered.filterMap (fun p =>
            match e1.Filtered.get p.1 with
            | some _ => none
            | none => some (p.1, p.2))) from rfl]
  rw [List.map_append]
  refine List.Nodup.append
    ((Env.keys_filterMap_sublist _ (buildDiff_keyA e2.Filtered) e1.Filtered).nodup hf1)
    ((Env.keys_filterMap_sublist _ (buildDiff_keyB e1.Filtered) e2.Filtered).nodup hf2)
    ?_
  intro k hkA hkB
  rcases List.mem_map.mp hkA with ⟨q, hqmem, hqk⟩
  rcases List.mem_filterMap.mp hqmem with ⟨p, hpmem, hgp⟩
  have hk1 : p.1 = k := by
    rw [← hqk, buildDiff_keyA e2.Filtered p q hgp]
  rcases List.mem_map.mp hkB with ⟨q', hq'mem, hq'k⟩
  rcases List.mem_filterMap.mp hq'mem with ⟨p', hp'mem, hgp'⟩
  rcases buildDiff_invB e1.Filtered p' q' hgp' with ⟨hnone, hq'eq⟩
  have hk2 : p'.1 = k := by rw [← hq'k, hq'eq]
  rw [hk2] at hnone
  exact (Env.get_eq_none_iff e1.Filtered k).mp hnone
    (by rw [← hk1]; exact List.mem_map_of_mem Prod.fst hpmem)

theorem buildDiff_self_empty (e : Env) (he : (e.map Prod.fst).Nodup) :
    (BuildEnvDiff e e).IsEmpty = true := by
  have hf := Env.filtered_keys_nodup e he
  have hall : ∀ p ∈ e.Filtered, Env.get e.Filtered p.1 = some p.2 :=
    fun p hp => Env.get_of_mem_nodup e.Filtered p hf hp
  have hnext : (BuildEnvDiff e e).next = [] := by
    rw [show (BuildEnvDiff e e).next
          = (e.Filtered.filterMap (fun p =>
              match e.Filtered.get p.1 with
              | some v2 => if p.2 ≠ v2 then some (p.1, v2) else none
              | none => some (p.1, "")))
            ++ (e.Filtered.filterMap (fun p =>
              match e.Filtered.get p.1 with
              | some _ => none
              | none => some (p.1, p.2))) from rfl]
    rw [List.filterMap_eq_nil_iff.mpr (fun p hp => by rw [hall p hp]; simp),
      List.filterMap_eq_nil_iff.mpr (fun p hp => by rw [hall p hp])]
    rfl
  have hprev : (BuildEnvDiff e e).prev = [] := by
    rw [show (BuildEnvDiff e e).prev
          = (e.Filtered.filterMap (fun p =>
              match e.Filtered.get p.1 with
              | some v2 => if p.2 ≠ v2 then some (p.1, p.2) else none
              | none => some (p.1, p.2)))
            ++ (e.Filtered.filterMap (fun p =>
              match e.Filtered.get p.1 with
              | some _ => none
              | none => some (p.1, ""))) from rfl]
    rw [List.filterMap_eq_nil_iff.mpr (fun p hp => by rw [hall p hp]; simp),
      List.filterMap_eq_nil_iff.mpr (fun p hp => by rw [hall p hp])]
    rfl
  simp [EnvDiff.IsEmpty, hnext, hprev]

theorem buildDiff_patch_get (e1 e2 : Env)
    (h1 : (e1.map Prod.fst).Nodup) (h2 : (e2.map Prod.fst).Nodup)
    (hne : ∀ k v, Env.get e2 k = some v → v ≠ "") (k : String) :
    Env.get (Env.Filtered ((BuildEnvDiff e1 e2).Patch e1)) k
      = Env.get e2.Filtered k := by
  rw [Env.get_filtered, Env.get_filtered]
  by_cases hig : IgnoredEnv k
  · simp [hig]
  · rw [if_neg hig, if_neg hig]
    rw [EnvDiff.get_patch _ _ (buildDiff_next_keys_nodup e1 e2 h1 h2) k]
    rw [buildDiff_next_get e1 e2 h1 h2 k]
    rw [Env.get_filtered e1 k, Env.get_filtered e2 k]
    rw [if_neg hig, if_neg hig]
    cases ha : Env.get e1 k <;> cases hb : Env.get e2 k
    · simp
    · rename_i v2
      have hv2 := hne k v2 hb
      simp [hv2]
    · simp
    · rename_i v1 v2
      have hv2 := hne k v2 hb
      by_cases hv : v1 = v2
      · simp [hv]
      · simp [hv, hv2]

/-- C3 (amended) — BuildDiff correctness: for every Go-map environment `e`
(duplicate-free keys), `BuildEnvDiff e e` is the empty diff; and for every
pair of environments `e1`, `e2` such that `e2` maps no key to the empty
string (the sentinel for an absent variable), applying `BuildEnvDiff e1 e2`
to `e1` yields `e2` modulo ignored keys: both sides agree as maps after the
ignored-key filter. -/
theorem c3_buildDiff_correct :
    (∀ e : Env, (e.map Prod.fst).Nodup → (BuildEnvDiff e e).IsEmpty = true) ∧
    (∀ e1 e2 : Env, (e1.map Prod.fst).Nodup → (e2.map Prod.fst).Nodup →
      (∀ k v, Env.get e2 k = some v → v ≠ "") →
      ∀ k, Env.get (Env.Filtered ((BuildEnvDiff e1 e2).Patch e1)) k
        = Env.get e2.Filtered k) :=
  ⟨buildDiff_self_empty, buildDiff_patch_get⟩

/-- C3 counterexample: the claim as stated fails for `e1 = {}` and
`e2 = {X=""}` — the diff records `X` as added with (empty) value `""`, so
`Patch` deletes `X` and the patched result disagrees with `e2` at the
non-ignored key `X` even after filtering. -/
theorem c3_counterexample :
    ¬ (Env.get (Env.Filtered ((BuildEnvDiff [] [("X", "")]).Patch [])) "X"
        = Env.get (Env.Filtered [("X", "")]) "X") := by decide

/-- Witness for C3 at `e = {A=1}` (emptiness) and `e1 = {A=1}`, `e2 = {A=2}`
(patch agreement at the key `A`). -/
theorem c3_buildDiff_correct_witness :
    (BuildEnvDiff [("A", "1")] [("A", "1")]).IsEmpty = true ∧
    Env.get (Env.Filtered ((BuildEnvDiff [("A", "1")] [("A", "2")]).Patch [("A", "1")])) "A"
      = Env.get (Env.Filtered [("A", "2")]) "A" := by
  constructor
  · exact c3_buildDiff_correct.1 [("A", "1")] (by decide)
  · refine c3_buildDiff_correct.2 [("A", "1")] [("A", "2")] (by decide) (by decide) ?_ "A"
    intro k v hv
    by_cases h : "A" = k
    · rw [show Env.get [("A", "2")] k = some "2" by simp [Env.get, h]] at hv
      cases hv
      decide
    · rw [show Env.get [("A", "2")] k = none by simp [Env.get, h]] at hv
      cases hv

/-! ### gzenv codec (internal/env/gzenv.go) -/

/-- A Go byte string, modelled as its character sequence. -/
abbrev Bytes := List Char

/-- An `EnvDiff` as decoded from JSON, before map normalization: Go's
`json.Unmarshal` may leave either map nil (modelled as `none`). -/
structure RawDiff where
  prev : Option Env
  next : Option Env

/-- The normalization at the end of `Unmarshal` in internal/env/gzenv.go:
nil maps are replaced by initialized empty maps. -/
def RawDiff.normalize (r : RawDiff) : EnvDiff :=
  ⟨r.prev.getD [], r.next.getD []⟩

/-- `Marshal` from internal/env/gzenv.go: nil and empty diffs encode to the
empty string; otherwise JSON-encode, zlib-compress and base64-URL-encode.
The Go standard library codecs (`encoding/json`, `compress/zlib`,
`encoding/base64`) are collaborators and passed as function parameters. -/
def Marshal (jsonEnc : EnvDiff → Bytes) (zlibC : Bytes → Bytes)
    (b64e : Bytes → String) (diff : Option EnvDiff) : String :=
  match diff with
  | none => ""
  | some d => if d.IsEmpty then "" else b64e (zlibC (jsonEnc d))

/-- `Unmarshal` from internal/env/gzenv.go: the empty string decodes to the
empty diff with both maps initialized; otherwise base64-decode,
zlib-decompress and JSON-decode (each stage can fail with an error,
modelled as `none`), then normalize nil maps. -/
def Unmarshal (b64d : String → Option Bytes) (zlibD : Bytes → Option Bytes)
    (jsonDec : Bytes → Option RawDiff) (s : String) : Option EnvDiff :=
  if s = "" then some ⟨[], []⟩
  else
    match b64d s with
    | none => none
    | some compressed =>
      match zlibD compressed with
      | none => none
      | some jsonData =>
        match jsonDec jsonData with
        | none => none
        | some raw => some raw.normalize

/-- C6 — gzenv codec round-trip: decoding the encoding of any diff gives the
diff back, under the round-trip contracts of the collaborating stdlib codecs
at that diff (base64 and zlib invert their encodings, JSON decode inverts
JSON encode up to nil-map normalization, and a compressed encoding is never
the empty string).  A nil diff or an empty diff encodes to the empty string,
which decodes to the empty diff with both maps initialized. -/
theorem c6_gzenv_round_trip (jsonEnc : EnvDiff → Bytes) (zlibC : Bytes → Bytes)
    (b64e : Bytes → String) (b64d : String → Option Bytes)
    (zlibD : Bytes → Option Bytes) (jsonDec : Bytes → Option RawDiff)
    (d : EnvDiff) (raw : RawDiff)
    (hb64 : b64d (b64e (zlibC (jsonEnc d))) = some (zlibC (jsonEnc d)))
    (hzlib : zlibD (zlibC (jsonEnc d)) = some (jsonEnc d))
    (hjson : jsonDec (jsonEnc d) = some raw)
    (hnorm : raw.normalize = d)
    (hne : b64e (zlibC (jsonEnc d)) ≠ "") :
    Unmarshal b64d zlibD jsonDec (Marshal jsonEnc zlibC b64e (some d)) = some d ∧
    Unmarshal b64d zlibD jsonDec (Marshal jsonEnc zlibC b64e none) = some ⟨[], []⟩ := by
  constructor
  · by_cases hd : d.IsEmpty
    · have hds : d = ⟨[], []⟩ := by
        cases d with
        | mk dp dn =>
          simp only [EnvDiff.IsEmpty, Bool.and_eq_true, List.isEmpty_iff] at hd
          simp [hd.1, hd.2]
      rw [show Marshal jsonEnc zlibC b64e (some d) = "" by simp [Marshal, hd]]
      rw [show Unmarshal b64d zlibD jsonDec "" = some ⟨[], []⟩ by simp [Unmarshal]]
      rw [hds]
    · rw [show Marshal jsonEnc zlibC b64e (some d) = b64e (zlibC (jsonEnc d)) by
            simp [Marshal, hd]]
      unfold Unmarshal
      rw [if_neg hne]
      simp [hb64, hzlib, hjson, hnorm]
  · simp [Marshal, Unmarshal]

/-- Witness for C6 with concrete (trivially invertible) stand-in codecs at
the diff `{X: a -> b}` and at the nil diff. -/
theorem c6_gzenv_round_trip_witness :
    Unmarshal (fun _ => some [Char.ofNat 106]) (fun b => some b)
      (fun _ => some ⟨some [("X", "a")], some [("X", "b")]⟩)
      (Marshal (fun _ => [Char.ofNat 106]) (fun b => b) (fun _ => "Z")
        (some ⟨[("X", "a")], [("X", "b")]⟩)) = some ⟨[("X", "a")], [("X", "b")]⟩ ∧
    Unmarshal (fun _ => some [Char.ofNat 106]) (fun b => some b)
      (fun _ => some ⟨some [("X", "a")], some [("X", "b")]⟩)
      (Marshal (fun _ => [Char.ofNat 106]) (fun b => b) (fun _ => "Z") none)
      = some ⟨[], []⟩ :=
  c6_gzenv_round_trip (fun _ => [Char.ofNat 106]) (fun b => b) (fun _ => "Z")
    (fun _ => some [Char.ofNat 106]) (fun b => some b)
    (fun _ => some ⟨some [("X", "a")], some [("X", "b")]⟩)
    ⟨[("X", "a")], [("X", "b")]⟩ ⟨some [("X", "a")], some [("X", "b")]⟩
    rfl rfl rfl rfl (by decide)

/-! ### Path cleaning and the authorization store (package allow) -/

/-- Split a character sequence on the path separator, Go
`strings.Split(path, "/")`. -/
def splitSlash : List Char → List (List Char)
  | [] => [[]]
  | c :: rest =>
    if c = '/' then [] :: splitSlash rest
    else
      match splitSlash rest with
      | [] => [[c]]
      | g :: gs => (c :: g) :: gs

/-- Join path elements with the separator, Go `strings.Join(elems, "/")`. -/
def joinSlash : List (List Char) → List Char
  | [] => []
  | [g] => g
  | g :: gs => g ++ '/' :: joinSlash gs

/-- One element step of Go `path/filepath.Clean` (unix separators): empty and
`.` elements are dropped; `..` pops the last collected element unless the
collected tail is itself `..`, is appended for relative paths that cannot
backtrack, and is dropped at the root of a rooted path; any other element is
appended. -/
def cleanStep (rooted : Bool) (stack : List (List Char)) (comp : List Char) :
    List (List Char) :=
  if comp = [] || comp = ['.'] then stack
  else if comp = ['.', '.'] then
    if stack ≠ [] && stack.getLast? != some ['.', '.'] then stack.dropLast
    else if rooted then stack
    else stack ++ [['.', '.']]
  else stack ++ [comp]

/-- Go `path/filepath.Clean` for unix paths. -/
def Clean (path : String) : String :=
  if path = "" then "."
  else
    let rooted :=
      match path.data with
      | c :: _ => decide (c = '/')
      | [] => false
    let stack := (splitSlash path.data).foldl (cleanStep rooted) []
    let out := String.mk (joinSlash stack)
    if rooted then (if out = "" then "/" else "/" ++ out)
    else (if out = "" then "." else out)

/-- `isUnderPath` from the allow package: clean both paths, then test
equality or a proper prefix ending at a separator boundary (Go compares
byte prefixes; on valid UTF-8 this is the character-level comparison). -/
def isUnderPath (child parent : String) : Bool :=
  let c := Clean child
  let p := Clean parent
  if c = p then true
  else
    let ps := p ++ "/"
    decide (c.length > ps.length) && ps.data.isPrefixOf c.data

/-- `AllowStatus` from the allow package. -/
inductive AllowStatus
  | Allowed
  | NotAllowed
  | Denied
  deriving Repr, DecidableEq

/-- `RC` from internal/envrc/rc.go. -/
structure RC where
  Path : String
  Dir : String
  Exists : Bool
  ContentHash : String
  deriving Repr, DecidableEq

/-- The observable on-disk contents of an allow `Store`: the file names
under `deny/` (path hashes), the file names under `allow/` (content
hashes), and the payloads of the files under `trust/` (absolute trusted
directory paths). -/
structure Store where
  denyEntries : List String
  allowEntries : List String
  trustedPaths : List String
  deriving Repr, DecidableEq

/-- `Store.IsTrustedSubtree`: resolve the path (Go `filepath.Abs` is `Clean`
for the absolute paths an `RC` carries) and test `isUnderPath` against
every trusted subtree payload. -/
def Store.IsTrustedSubtree (s : Store) (path : String) : Bool :=
  s.trustedPaths.any (fun trusted => isUnderPath (Clean path) trusted)

/-- `Store.CheckWithWhitelist` from the allow package: deny by path hash
first; then explicit allow by content hash (only consulted for a non-empty
hash); then trusted subtree; then the configured whitelist; else
NotAllowed.  The path-hash function (SHA-256 of the symlink-resolved
absolute path) is a parameter. -/
def Store.CheckWithWhitelist (phash : String → String) (s : Store) (rc : RC)
    (wl : Option (String → Bool)) : AllowStatus :=
  if s.denyEntries.contains (phash rc.Path) then .Denied
  else if rc.ContentHash ≠ "" && s.allowEntries.contains rc.ContentHash then .Allowed
  else if s.IsTrustedSubtree rc.Path then .Allowed
  else if (match wl with | some f => f rc.Path | none => false) then .Allowed
  else .NotAllowed

/-- `Store.Check` from the allow package: `CheckWithWhitelist` with a nil
whitelister. -/
def Store.Check (phash : String → String) (s : Store) (rc : RC) : AllowStatus :=
  Store.CheckWithWhitelist phash s rc none

/-- Modelled from the spec: the precedence list of section 4.B, written
top-to-bottom on the first match — Denied on a deny entry for the path
hash, else Allowed on an allow entry for the content hash, else Allowed
under a trusted subtree, else Allowed under a whitelisted prefix, else
NotAllowed.  This is the refinement target for C1, to be compared with
`Store.CheckWithWhitelist` from the code. -/
def CheckSpec (phash : String → String) (s : Store) (rc : RC)
    (wl : Option (String → Bool)) : AllowStatus :=
  if s.denyEntries.contains (phash rc.Path) then .Denied
  else if s.allowEntries.contains rc.ContentHash then .Allowed
  else if s.IsTrustedSubtree rc.Path then .Allowed
  else if (match wl with | some f => f rc.Path | none => false) then .Allowed
  else .NotAllowed

/-- C1 — Authorization check precedence: for every store state whose allow
directory holds no file with an empty name (file names are hex digests, so
this always holds on disk) and every RC, `CheckWithWhitelist` returns
exactly the highest-priority outcome of the spec's precedence list. -/
theorem c1_check_precedence (phash : String → String) (s : Store) (rc : RC)
    (wl : Option (String → Bool)) (hne : ¬"" ∈ s.allowEntries) :
    Store.CheckWithWhitelist phash s rc wl = CheckSpec phash s rc wl := by
  unfold Store.CheckWithWhitelist CheckSpec
  by_cases hch : rc.ContentHash = ""
  · simp [hch, hne]
  · simp [hch]

/-- Witness for C1 at a store denying `/h/.envrc` by path hash while also
carrying an allow entry for its content hash: the deny wins. -/
theorem c1_check_precedence_witness :
    Store.CheckWithWhitelist (fun p => p) ⟨["/h/.envrc"], ["hash1"], []⟩
      ⟨"/h/.envrc", "/h", true, "hash1"⟩ none
      = CheckSpec (fun p => p) ⟨["/h/.envrc"], ["hash1"], []⟩
      ⟨"/h/.envrc", "/h", true, "hash1"⟩ none :=
  c1_check_precedence (fun p => p) ⟨["/h/.envrc"], ["hash1"], []⟩
    ⟨"/h/.envrc", "/h", true, "hash1"⟩ none (by decide)

/-- `Store.Allow` from the allow package: refuses a non-existent RC, then an
RC without content hash; otherwise writes `allow/<content-hash>` and removes
any `deny/<path-hash>` entry.  The returned pair is the resulting store
contents and the error, mirroring the Go `error` return. -/
def Store.Allow (phash : String → String) (s : Store) (rc : RC) :
    Store × Option String :=
  if !rc.Exists then (s, some ("cannot allow non-existent file: " ++ rc.Path))
  else if rc.ContentHash = "" then
    (s, some ("cannot allow file without content hash: " ++ rc.Path))
  else
    ({ denyEntries := s.denyEntries.filter (fun h => h != phash rc.Path),
       allowEntries := if s.allowEntries.contains rc.ContentHash then s.allowEntries
         else s.allowEntries ++ [rc.ContentHash],
       trustedPaths := s.trustedPaths }, none)

/-- C10 — Allow precondition atomicity: for every RC with `Exists = false` or
with an empty content hash, `Store.Allow` returns an error, the store
contents are unchanged, and every subsequent `Check` gives the same status
as before the call. -/
theorem c10_allow_precondition (phash : String → String) (s : Store) (rc : RC)
    (h : rc.Exists = false ∨ rc.ContentHash = "") :
    (Store.Allow phash s rc).1 = s ∧ (Store.Allow phash s rc).2.isSome = true ∧
    (∀ rc' wl, Store.CheckWithWhitelist phash (Store.Allow phash s rc).1 rc' wl
      = Store.CheckWithWhitelist phash s rc' wl) := by
  rcases h with h | h
  · rw [show Store.Allow phash s rc
        = (s, some ("cannot allow non-existent file: " ++ rc.Path)) by
          simp [Store.Allow, h]]
    exact ⟨rfl, rfl, fun rc' wl => rfl⟩
  · by_cases hex : rc.Exists
    · rw [show Store.Allow phash s rc
          = (s, some ("cannot allow file without content hash: " ++ rc.Path)) by
            simp [Store.Allow, hex, h]]
      exact ⟨rfl, rfl, fun rc' wl => rfl⟩
    · rw [show Store.Allow phash s rc
          = (s, some ("cannot allow non-existent file: " ++ rc.Path)) by
            simp [Store.Allow, hex]]
      exact ⟨rfl, rfl, fun rc' wl => rfl⟩

/-- Witness for C10 at a non-existent RC over a store with one deny entry. -/
theorem c10_allow_precondition_witness :
    (Store.Allow (fun p => p) ⟨["d"], ["a"], []⟩ ⟨"/h/.envrc", "/h", false, ""⟩).1
      = ⟨["d"], ["a"], []⟩ ∧
    (Store.Allow (fun p => p) ⟨["d"], ["a"], []⟩ ⟨"/h/.envrc", "/h", false, ""⟩).2.isSome
      = true ∧
    (∀ rc' wl,
      Store.CheckWithWhitelist (fun p => p)
        (Store.Allow (fun p => p) ⟨["d"], ["a"], []⟩ ⟨"/h/.envrc", "/h", false, ""⟩).1 rc' wl
      = Store.CheckWithWhitelist (fun p => p) ⟨["d"], ["a"], []⟩ rc' wl) :=
  c10_allow_precondition (fun p => p) ⟨["d"], ["a"], []⟩
    ⟨"/h/.envrc", "/h", false, ""⟩ (Or.inl rfl)

/-! ### Shell export formatting (internal/shell) and the revert path of
`cascade export` (internal/cmd/export.go) -/

/-- Byte-lexicographic strict order on character sequences: Go compares
strings byte by byte, and on valid UTF-8 the byte order coincides with the
code-point order. -/
def strLt : List Char → List Char → Bool
  | [], [] => false
  | [], _ :: _ => true
  | _ :: _, [] => false
  | a :: as, b :: bs =>
    if a.toNat < b.toNat then true
    else if b.toNat < a.toNat then false
    else strLt as bs

/-- Go string `<=`, as used by `slices.Sort` on `[]string`. -/
def strLe (a b : String) : Bool := !(strLt b.data a.data)

/-- Insert into a sorted list, keeping it sorted. -/
def sortedInsert (a : String) : List String → List String
  | [] => [a]
  | b :: rest => if strLe a b then a :: b :: rest else b :: sortedInsert a rest

/-- Ascending sort of the key slice, the contract of Go `slices.Sort`. -/
def sortStrings : List String → List String
  | [] => []
  | a :: rest => sortedInsert a (sortStrings rest)

/-- `ShellExport` from internal/shell/shell.go: a map from key to set value
(`some`) or unset (`none`), modelled like `Env` as an association list. -/
abbrev ShellExport := List (String × Option String)

/-- Lookup in a `ShellExport`. -/
def ShellExport.find : ShellExport → String → Option (Option String)
  | [], _ => none
  | p :: rest, k => if p.1 = k then some p.2 else ShellExport.find rest k

/-- Delete a `ShellExport` key. -/
def ShellExport.del : ShellExport → String → ShellExport
  | [], _ => []
  | p :: rest, k => if p.1 = k then ShellExport.del rest k else p :: ShellExport.del rest k

/-- `ShellExport.Set`: mark a variable to be set. -/
def ShellExport.set (e : ShellExport) (k v : String) : ShellExport :=
  e.del k ++ [(k, some v)]

/-- `ShellExport.Unset`: mark a variable to be unset. -/
def ShellExport.unset (e : ShellExport) (k : String) : ShellExport :=
  e.del k ++ [(k, none)]

/-- `BashEscape` from internal/shell: escape backslash, double quote,
dollar, backquote (code point 96), newline, carriage return and tab for use
inside bash double quotes. -/
def BashEscape (s : String) : String :=
  String.join (s.data.map (fun r =>
    if r = '\\' then "\\\\"
    else if r = '"' then "\\\""
    else if r = '$' then "\\$"
    else if r = Char.ofNat 96 then "\\" ++ String.mk [Char.ofNat 96]
    else if r = '\n' then "\\n"
    else if r = '\r' then "\\r"
    else if r = '\t' then "\\t"
    else String.mk [r]))

/-- `Export` of the bash dialect (internal/shell, shared by zsh): empty
export renders as the empty string; otherwise keys are sorted ascending and
each renders as `unset KEY;` or `export KEY="escaped";` on its own line. -/
def bashExport (e : ShellExport) : String :=
  if e.isEmpty then ""
  else
    String.join ((sortStrings (e.map Prod.fst)).map (fun key =>
      match ShellExport.find e key with
      | some none => "unset " ++ key ++ ";\n"
      | some (some v) => "export " ++ key ++ "=\"" ++ BashEscape v ++ "\";\n"
      | none => ""))

/-- The export operations built by `revertAndCleanup` (internal/cmd/export.go):
apply the reversed diff entry by entry, then unset the four `CASCADE_*`
session variables. -/
def revertOps (diff : EnvDiff) : ShellExport :=
  let reversed := diff.Reverse
  let ex := reversed.next.foldl
    (fun ex p => if p.2 = "" then ShellExport.unset ex p.1 else ShellExport.set ex p.1 p.2)
    ([] : ShellExport)
  ((((ex.unset "CASCADE_DIFF").unset "CASCADE_DIR").unset
    "CASCADE_FILE").unset "CASCADE_WATCHES")

/-- `revertAndCleanup` (internal/cmd/export.go), restricted to its stdout
transcript: the stderr change log and the best-effort state-file deletions
do not contribute to the emitted shell transcript. -/
def revertAndCleanup (diff : EnvDiff) : String :=
  bashExport (revertOps diff)

/-- The observable contents of the persistent state store
(internal/state): for each script path, the diff recorded for it. -/
structure StateStore where
  entries : List (String × EnvDiff)

/-- Lookup of a saved state diff by script path. -/
def StateStore.lookup : List (String × EnvDiff) → String → Option EnvDiff
  | [], _ => none
  | p :: rest, k => if p.1 = k then some p.2 else StateStore.lookup rest k

/-- The loop of `handleNoEnvrc` over denied paths: the first denied script
with a recorded state diff wins. -/
def findSavedDiff (st : StateStore) : List String → Option EnvDiff
  | [] => none
  | p :: rest =>
    match StateStore.lookup st.entries p with
    | some d => some d
    | none => findSavedDiff st rest

/-- The fallback of `handleNoEnvrc` when the session diff is absent or
empty: consult persistent state for the denied paths; with no state store
or no recorded diff, emit nothing (the stderr staleness warning does not
contribute to the transcript). -/
def handleNoEnvrcFallback : Option StateStore → List String → String
  | some st, dp =>
    match findSavedDiff st dp with
    | some d => revertAndCleanup d
    | none => ""
  | none, _ => ""

/-- `handleNoEnvrc` (internal/cmd/export.go): revert the session's prior
diff when present and non-empty, else fall back to persistent state for
denied scripts, else emit nothing. -/
def handleNoEnvrc : Option EnvDiff → Option StateStore → List String → String
  | some d, ss, dp => if !d.IsEmpty then revertAndCleanup d else handleNoEnvrcFallback ss dp
  | none, ss, dp => handleNoEnvrcFallback ss dp

/-- C5 — Reversible leave: when no .envrc applies and the session carries a
non-empty prior diff, the transcript is exactly the revert of that diff
followed by unsets of the four CASCADE session variables; for the prior
diff `{X: "" -> new}` the transcript is the five `unset` lines; and with no
prior diff (absent or empty, no denied scripts) no output is emitted. -/
theorem c5_reversible_leave :
    (∀ ss dp d, d.IsEmpty = false →
      handleNoEnvrc (some d) ss dp = bashExport (revertOps d)) ∧
    (handleNoEnvrc (some ⟨[("X", "")], [("X", "new")]⟩) none []
      = "unset CASCADE_DIFF;\nunset CASCADE_DIR;\nunset CASCADE_FILE;\nunset CASCADE_WATCHES;\nunset X;\n") ∧
    (handleNoEnvrc none none [] = "") ∧
    (∀ d, d.IsEmpty = true → handleNoEnvrc (some d) none [] = "") := by
  refine ⟨?_, ?_, rfl, ?_⟩
  · intro ss dp d h
    simp [handleNoEnvrc, h, revertAndCleanup]
  · decide
  · intro d h
    simp [handleNoEnvrc, h, handleNoEnvrcFallback]

/-- Witness for C5 at the prior diff `{X: "" -> new}` and the empty diff. -/
theorem c5_reversible_leave_witness :
    handleNoEnvrc (some ⟨[("X", "")], [("X", "new")]⟩) none []
      = bashExport (revertOps ⟨[("X", "")], [("X", "new")]⟩) ∧
    handleNoEnvrc (some ⟨[], []⟩) none [] = "" :=
  ⟨c5_reversible_leave.1 none [] ⟨[("X", "")], [("X", "new")]⟩ (by decide),
   c5_reversible_leave.2.2.2 ⟨[], []⟩ (by decide)⟩

/-! ### Cache key (internal/eval, `CacheKey`) -/

theorem strLt_asymm (x y : List Char) (h : strLt x y = true) : strLt y x = false := by
  induction x generalizing y with
  | nil =>
    cases y with
    | nil => simp [strLt] at h
    | cons b bs => rfl
  | cons a as ih =>
    cases y with
    | nil => simp [strLt] at h
    | cons b bs =>
      by_cases hab : a.toNat < b.toNat
      · have hba : ¬b.toNat < a.toNat := by omega
        simp [strLt, hab, hba]
      · by_cases hba : b.toNat < a.toNat
        · simp [strLt, hab, hba] at h
        · have h' : strLt as bs = true := by simpa [strLt, hab, hba] using h
          simp [strLt, hab, hba, ih bs h']

theorem strLt_trans (x : List Char) : ∀ (y z : List Char),
    strLt x y = true → strLt y z = true → strLt x z = true := by
  induction x with
  | nil =>
    intro y z h1 h2
    cases z with
    | nil =>
      cases y with
      | nil => simp [strLt] at h1
      | cons b bs => simp [strLt] at h2
    | cons c cs => rfl
  | cons a as ih =>
    intro y z h1 h2
    cases y with
    | nil => simp [strLt] at h1
    | cons b bs =>
      cases z with
      | nil => simp [strLt] at h2
      | cons c cs =>
        by_cases hab : a.toNat < b.toNat <;> by_cases hbc : b.toNat < c.toNat
        · have hac : a.toNat < c.toNat := by omega
          simp [strLt, hac]
        · by_cases hcb : c.toNat < b.toNat
          · simp [strLt, hbc, hcb] at h2
          · have hac : a.toNat < c.toNat := by omega
            simp [strLt, hac]
        · by_cases hba : b.toNat < a.toNat
          · simp [strLt, hab, hba] at h1
          · have hac : a.toNat < c.toNat := by omega
            simp [strLt, hac]
        · by_cases hba : b.toNat < a.toNat
          · simp [strLt, hab, hba] at h1
          · by_cases hcb : c.toNat < b.toNat
            · simp [strLt, hbc, hcb] at h2
            · have h1' : strLt as bs = true := by simpa [strLt, hab, hba] using h1
              have h2' : strLt bs cs = true := by simpa [strLt, hbc, hcb] using h2
              have hac : ¬a.toNat < c.toNat := by omega
              have hca : ¬c.toNat < a.toNat := by omega
              simp [strLt, hac, hca, ih bs cs h1' h2']

theorem strLt_conn (x : List Char) : ∀ (y : List Char),
    strLt x y = false → strLt y x = false → x = y := by
  induction x with
  | nil =>
    intro y h1 h2
    cases y with
    | nil => rfl
    | cons b bs => simp [strLt] at h1
  | cons a as ih =>
    intro y h1 h2
    cases y with
    | nil => simp [strLt] at h2
    | cons b bs =>
      by_cases hab : a.toNat < b.toNat
      · simp [strLt, hab] at h1
      · by_cases hba : b.toNat < a.toNat
        · simp [strLt, hba] at h2
        · have hnat : a.toNat = b.toNat := by omega
          have habeq : a = b := Char.eq_of_val_eq (UInt32.toNat.inj hnat)
          have h1' : strLt as bs = false := by simpa [strLt, hab, hba] using h1
          have h2' : strLt bs as = false := by simpa [strLt, hba, hab] using h2
          rw [habeq, ih bs h1' h2']

theorem strLe_total (a b : String) : strLe a b = true ∨ strLe b a = true := by
  unfold strLe
  by_cases h : strLt b.data a.data = true
  · right
    simp [strLt_asymm b.data a.data h]
  · left
    simp [h]

theorem strLe_trans (a b c : String) (h1 : strLe a b = true) (h2 : strLe b c = true) :
    strLe a c = true := by
  unfold strLe at h1 h2 ⊢
  simp only [Bool.not_eq_true'] at h1 h2 ⊢
  by_cases hca : strLt c.data a.data = true
  · by_cases hab : strLt a.data b.data = true
    · rw [strLt_trans c.data a.data b.data hca hab] at h2
      cases h2
    · have hdata : a.data = b.data :=
        strLt_conn a.data b.data (by simpa using hab) h1
      rw [← hdata] at h2
      rw [h2] at hca
      cases hca
  · simpa using hca

theorem strLe_antisymm (a b : String) (h1 : strLe a b = true) (h2 : strLe b a = true) :
    a = b := by
  unfold strLe at h1 h2
  simp only [Bool.not_eq_true'] at h1 h2
  have hdata : a.data = b.data := strLt_conn a.data b.data h2 h1
  cases a
  cases b
  exact congrArg String.mk hdata

theorem perm_sortedInsert (a : String) (l : List String) :
    (sortedInsert a l).Perm (a :: l) := by
  induction l with
  | nil => exact List.Perm.refl [a]
  | cons b rest ih =>
    by_cases h : strLe a b = true
    · simp [sortedInsert, h]
    · rw [show sortedInsert a (b :: rest) = b :: sortedInsert a rest by
            simp [sortedInsert, h]]
      exact (ih.cons b).trans (List.Perm.swap a b rest)

theorem mem_sortedInsert (x a : String) (l : List String) :
    x ∈ sortedInsert a l ↔ x = a ∨ x ∈ l := by
  rw [(perm_sortedInsert a l).mem_iff]
  simp

theorem sorted_sortedInsert (a : String) (l : List String)
    (h : l.Pairwise (fun x y => strLe x y = true)) :
    (sortedInsert a l).Pairwise (fun x y => strLe x y = true) := by
  induction l with
  | nil => simp [sortedInsert]
  | cons b rest ih =>
    rcases List.pairwise_cons.mp h with ⟨hb, hrest⟩
    by_cases hab : strLe a b = true
    · rw [show sortedInsert a (b :: rest) = a :: b :: rest by simp [sortedInsert, hab]]
      refine List.pairwise_cons.mpr ⟨?_, h⟩
      intro y hy
      rcases List.mem_cons.mp hy with rfl | hy
      · exact hab
      · exact strLe_trans a b y hab (hb y hy)
    · have hba : strLe b a = true := (strLe_total a b).resolve_left hab
      rw [show sortedInsert a (b :: rest) = b :: sortedInsert a rest by
            simp [sortedInsert, hab]]
      refine List.pairwise_cons.mpr ⟨?_, ih hrest⟩
      intro y hy
      rcases (mem_sortedInsert y a rest).mp hy with rfl | hy
      · exact hba
      · exact hb y hy

theorem perm_sortStrings (l : List String) : (sortStrings l).Perm l := by
  induction l with
  | nil => exact List.Perm.refl []
  | cons a rest ih => exact (perm_sortedInsert a (sortStrings rest)).trans (ih.cons a)

theorem sorted_sortStrings (l : List String) :
    (sortStrings l).Pairwise (fun x y => strLe x y = true) := by
  induction l with
  | nil => simp [sortStrings]
  | cons a rest ih => exact sorted_sortedInsert a (sortStrings rest) ih

theorem sortStrings_eq_of_perm (l1 l2 : List String) (h : l1.Perm l2) :
    sortStrings l1 = sortStrings l2 := by
  haveI : IsAntisymm String (fun x y => strLe x y = true) :=
    ⟨fun x y => strLe_antisymm x y⟩
  exact List.eq_of_perm_of_sorted
    (((perm_sortStrings l1).trans h).trans (perm_sortStrings l2).symm)
    (sorted_sortStrings l1) (sorted_sortStrings l2)

/-- `Env.ToGoEnv` from internal/env/env.go: the `KEY=VALUE` entries, sorted
ascending for deterministic output. -/
def Env.ToGoEnv (e : Env) : List String :=
  sortStrings (e.map (fun p => p.1 ++ "=" ++ p.2))

/-- The byte string hashed by `CacheKey` (internal/eval): the RC content
hash, a newline, then every sorted `KEY=VALUE` entry each terminated by a
NUL byte. -/
def CacheKeyBytes (rc : RC) (inputEnv : Env) : List Char :=
  rc.ContentHash.data ++ '\n' :: (inputEnv.ToGoEnv.flatMap (fun s => s.data ++ [Char.ofNat 0]))

/-- `CacheKey` from internal/eval: SHA-256 (a parameter) over `CacheKeyBytes`. -/
def CacheKey (sha : List Char → String) (rc : RC) (inputEnv : Env) : String :=
  sha (CacheKeyBytes rc inputEnv)

theorem append_sep_inj (c : Char) : ∀ (a b x y : List Char),
    c ∉ a → c ∉ b → a ++ c :: x = b ++ c :: y → a = b ∧ x = y := by
  intro a
  induction a with
  | nil =>
    intro b x y _ hb h
    cases b with
    | nil => simpa using h
    | cons d bs =>
      simp only [List.nil_append, List.cons_append, List.cons.injEq] at h
      exact absurd (h.1 ▸ List.mem_cons_self d bs) hb
  | cons d as ih =>
    intro b x y ha hb h
    cases b with
    | nil =>
      simp only [List.cons_append, List.nil_append, List.cons.injEq] at h
      refine absurd ?_ ha
      rw [h.1]
      exact List.mem_cons_self c as
    | cons d' bs =>
      simp only [List.cons_append, List.cons.injEq] at h
      rcases h with ⟨hd, h2⟩
      rcases ih bs x y (fun hc => ha (List.mem_cons_of_mem d hc))
        (fun hc => hb (List.mem_cons_of_mem d' hc)) h2 with ⟨h3, h4⟩
      exact ⟨by rw [hd, h3], h4⟩

theorem flatMap_term_inj (c : Char) : ∀ (ls ms : List String),
    (∀ s ∈ ls, c ∉ s.data) → (∀ s ∈ ms, c ∉ s.data) →
    ls.flatMap (fun s => s.data ++ [c]) = ms.flatMap (fun s => s.data ++ [c]) →
    ls = ms := by
  intro ls
  induction ls with
  | nil =>
    intro ms _ _ h
    cases ms with
    | nil => rfl
    | cons m ms' => simp [List.flatMap_cons] at h
  | cons s ls' ih =>
    intro ms hl hm h
    cases ms with
    | nil => simp [List.flatMap_cons] at h
    | cons m ms' =>
      simp only [List.flatMap_cons, List.append_assoc, List.singleton_append] at h
      rcases append_sep_inj c s.data m.data _ _
        (hl s (List.mem_cons_self s ls')) (hm m (List.mem_cons_self m ms')) h with
        ⟨hdata, hrest⟩
      have hsm : s = m := by
        cases s
        cases m
        exact congrArg String.mk hdata
      rw [hsm, ih ms' (fun t ht => hl t (List.mem_cons_of_mem s ht))
        (fun t ht => hm t (List.mem_cons_of_mem m ht)) hrest]

/-- C8 — Cache key: `CacheKey(rc, env)` is SHA-256 over the RC content hash,
a newline, then each sorted `KEY=VALUE` entry NUL-terminated; it is stable
under re-ordering of the input environment; and at the level of the hashed
byte string it determines the content hash and the entry multiset, so the
key changes whenever the content hash or any entry changes (up to SHA-256
collisions). -/
theorem c8_cache_key :
    (∀ (sha : List Char → String) (rc : RC) (e : Env),
      CacheKey sha rc e
        = sha (rc.ContentHash.data ++ '\n'
            :: ((sortStrings (e.map (fun p => p.1 ++ "=" ++ p.2))).flatMap
                (fun s => s.data ++ [Char.ofNat 0])))) ∧
    (∀ (sha : List Char → String) (rc : RC) (e1 e2 : Env), e1.Perm e2 →
      CacheKey sha rc e1 = CacheKey sha rc e2) ∧
    (∀ (rc1 rc2 : RC) (e1 e2 : Env),
      '\n' ∉ rc1.ContentHash.data → '\n' ∉ rc2.ContentHash.data →
      (∀ s ∈ Env.ToGoEnv e1, Char.ofNat 0 ∉ s.data) →
      (∀ s ∈ Env.ToGoEnv e2, Char.ofNat 0 ∉ s.data) →
      CacheKeyBytes rc1 e1 = CacheKeyBytes rc2 e2 →
      rc1.ContentHash = rc2.ContentHash ∧
      (e1.map (fun p => p.1 ++ "=" ++ p.2)).Perm (e2.map (fun p => p.1 ++ "=" ++ p.2))) := by
  refine ⟨fun sha rc e => rfl, ?_, ?_⟩
  · intro sha rc e1 e2 hp
    unfold CacheKey CacheKeyBytes Env.ToGoEnv
    rw [sortStrings_eq_of_perm _ _ (hp.map _)]
  · intro rc1 rc2 e1 e2 h1 h2 hz1 hz2 heq
    unfold CacheKeyBytes at heq
    rcases append_sep_inj '\n' _ _ _ _ h1 h2 heq with ⟨hdata, hflat⟩
    have hch : rc1.ContentHash = rc2.ContentHash := by
      have hh := hdata
      cases hc1 : rc1.ContentHash
      cases hc2 : rc2.ContentHash
      rw [hc1, hc2] at hh
      exact congrArg String.mk hh
    have hgo : Env.ToGoEnv e1 = Env.ToGoEnv e2 :=
      flatMap_term_inj (Char.ofNat 0) _ _ hz1 hz2 hflat
    refine ⟨hch, ?_⟩
    have hperm1 := perm_sortStrings (e1.map (fun p => p.1 ++ "=" ++ p.2))
    have hperm2 := perm_sortStrings (e2.map (fun p => p.1 ++ "=" ++ p.2))
    have hgo' : sortStrings (e1.map (fun p => p.1 ++ "=" ++ p.2))
        = sortStrings (e2.map (fun p => p.1 ++ "=" ++ p.2)) := hgo
    exact (hperm1.symm.trans (hgo' ▸ hperm2))

/-- Witness for C8: re-ordering a two-entry environment keeps the key, and
equal key bytes at a concrete store recover the content hash and entries. -/
theorem c8_cache_key_witness :
    CacheKey (fun _ => "H") ⟨"/h/.envrc", "/h", true, "ch"⟩ [("A", "1"), ("B", "2")]
      = CacheKey (fun _ => "H") ⟨"/h/.envrc", "/h", true, "ch"⟩ [("B", "2"), ("A", "1")] ∧
    (RC.ContentHash ⟨"/h/.envrc", "/h", true, "ch"⟩
        = RC.ContentHash ⟨"/h/.envrc", "/h", true, "ch"⟩ ∧
      (([("A", "1")] : Env).map (fun p => p.1 ++ "=" ++ p.2)).Perm
        (([("A", "1")] : Env).map (fun p => p.1 ++ "=" ++ p.2))) :=
  ⟨c8_cache_key.2.1 (fun _ => "H") ⟨"/h/.envrc", "/h", true, "ch"⟩
      [("A", "1"), ("B", "2")] [("B", "2"), ("A", "1")] (by decide),
   c8_cache_key.2.2 ⟨"/h/.envrc", "/h", true, "ch"⟩ ⟨"/h/.envrc", "/h", true, "ch"⟩
      [("A", "1")] [("A", "1")] (by decide) (by decide) (by decide) (by decide) rfl⟩

/-! ### Evaluator (internal/eval, `Evaluator.Evaluate`) -/

/-- `Result` from internal/eval: captured environment plus extra watch
paths declared by the script. -/
structure EvalResult where
  env : Env
  extraWatches : List String

/-- An observable side effect of one `Evaluate` call: a cache lookup, a
bash subprocess spawn, or a cache write. -/
inductive EvalEffect
  | cacheGet (key : String)
  | spawn
  | cacheSet (key : String)

/-- The outcome of the spawned bash subprocess for one evaluation, as seen
by the parent: whether `cmd.Start` succeeded, whether the fd-3 pipe could
be read to EOF, the bytes read from fd 3, the exit status, and the
captured stdout. -/
structure Subprocess where
  startOk : Bool
  readOk : Bool
  fd3Data : String
  exitCode : Nat
  stdout : String

/-- The `CASCADE_EXTRA_WATCHES` extraction at the end of `Evaluate`: split
the value on newlines, trim each entry, keep the non-empty ones, and
remove the key from the returned environment. -/
def extractWatches (envResult : Env) : Env × List String :=
  match Env.get envResult "CASCADE_EXTRA_WATCHES" with
  | some watches =>
    (Env.del envResult "CASCADE_EXTRA_WATCHES",
     (((watches.splitOn "\n").map (fun p => p.trim)).filter (fun p => p ≠ "")))
  | none => (envResult, [])

/-- The subprocess half of `Evaluate`: start error, fd-3 read error, exit
status error (carrying captured stdout when non-empty), empty-payload
error, JSON parse error (the `encoding/json` decoder is a collaborator
parameter), then watch extraction. -/
def evalSubprocess (proc : Subprocess) (parseJSON : String → Option Env) :
    Except String EvalResult :=
  if !proc.startOk then Except.error "start bash"
  else if !proc.readOk then Except.error "read json output"
  else if proc.exitCode ≠ 0 then
    (if proc.stdout ≠ "" then
      Except.error ("bash exited with status " ++ toString proc.exitCode
        ++ ": " ++ proc.stdout)
    else Except.error ("bash exited with status " ++ toString proc.exitCode))
  else if proc.fd3Data = "" then Except.error "no json output from bash"
  else
    match parseJSON proc.fd3Data with
    | none => Except.error "parse env output"
    | some envResult =>
      match extractWatches envResult with
      | (env2, extra) => Except.ok ⟨env2, extra⟩

/-- `Evaluator.Evaluate` from internal/eval: refuse a non-existent RC
before touching anything; otherwise consult the borrowed cache when
present, spawn bash on a miss, and store the result under the non-empty
key.  The returned effect list records the cache lookups, the spawn and
the cache write this call performs, in order. -/
def Evaluator.Evaluate (cache : Option (String → Option EvalResult))
    (sha : List Char → String) (proc : Subprocess)
    (parseJSON : String → Option Env) (rc : RC) (inputEnv : Env) :
    Except String EvalResult × List EvalEffect :=
  if !rc.Exists then (Except.error ("rc file does not exist: " ++ rc.Path), [])
  else
    match cache with
    | some cacheGet =>
      match cacheGet (CacheKey sha rc inputEnv) with
      | some cached => (Except.ok cached, [EvalEffect.cacheGet (CacheKey sha rc inputEnv)])
      | none =>
        match evalSubprocess proc parseJSON with
        | Except.error e =>
          (Except.error e, [EvalEffect.cacheGet (CacheKey sha rc inputEnv), EvalEffect.spawn])
        | Except.ok r =>
          if CacheKey sha rc inputEnv ≠ "" then
            (Except.ok r, [EvalEffect.cacheGet (CacheKey sha rc inputEnv),
              EvalEffect.spawn, EvalEffect.cacheSet (CacheKey sha rc inputEnv)])
          else
            (Except.ok r, [EvalEffect.cacheGet (CacheKey sha rc inputEnv), EvalEffect.spawn])
    | none =>
      match evalSubprocess proc parseJSON with
      | Except.error e => (Except.error e, [EvalEffect.spawn])
      | Except.ok r => (Except.ok r, [EvalEffect.spawn])

/-- C9 — Evaluator precondition enforcement: for every RC with
`Exists = false` and every input environment, `Evaluate` returns the
"rc file does not exist" error and performs no effect at all — no cache
lookup, no subprocess spawn, no cache write. -/
theorem c9_evaluate_requires_existing (cache : Option (String → Option EvalResult))
    (sha : List Char → String) (proc : Subprocess)
    (parseJSON : String → Option Env) (rc : RC) (inputEnv : Env)
    (h : rc.Exists = false) :
    Evaluator.Evaluate cache sha proc parseJSON rc inputEnv
      = (Except.error ("rc file does not exist: " ++ rc.Path), []) := by
  simp [Evaluator.Evaluate, h]

/-- Witness for C9 at a concrete non-existent RC with a live cache and a
healthy subprocess available. -/
theorem c9_evaluate_requires_existing_witness :
    Evaluator.Evaluate (some (fun _ => none)) (fun _ => "H")
      ⟨true, true, "{}", 0, ""⟩ (fun _ => some []) ⟨"/h/.envrc", "/h", false, ""⟩ []
      = (Except.error ("rc file does not exist: " ++ "/h/.envrc"), []) :=
  c9_evaluate_requires_existing (some (fun _ => none)) (fun _ => "H")
    ⟨true, true, "{}", 0, ""⟩ (fun _ => some []) ⟨"/h/.envrc", "/h", false, ""⟩ [] rfl

/-! ### RC construction (internal/envrc/rc.go, `NewRC`) -/

/-- The result of Go `os.Lstat`: the file is absent, present (symlink flag
from the file mode), or the stat itself failed. -/
inductive LstatResult
  | notFound
  | found (isSymlink : Bool)
  | ioError

/-- The filesystem as `NewRC` observes it: `Lstat`, `EvalSymlinks` (which
can fail, e.g. on a symlink loop) and `ReadFile` (which fails when the
file disappears between stat and read). -/
structure FS where
  lstat : String → LstatResult
  evalSymlinks : String → Option String
  readFile : String → Option (List Char)

/-- Go `filepath.Abs`: `Clean` for an absolute path, otherwise join onto
the working directory and clean. -/
def absPath (cwd path : String) : String :=
  if (match path.data with
      | c :: _ => decide (c = '/')
      | [] => false) then Clean path
  else Clean (cwd ++ "/" ++ path)

/-- Go `filepath.Dir`: everything up to and including the final separator,
cleaned. -/
def dirOf (p : String) : String :=
  Clean (String.mk ((p.data.reverse.dropWhile (fun c => c != '/')).reverse))

/-- `NewRC` from internal/envrc/rc.go: resolve to an absolute path; a
missing file yields an RC with `Exists = false` and an empty hash; a stat
failure is an error; a symlink is resolved to its target for hashing while
the original absolute path stays the RC's identity; the content hash is
SHA-256 (a parameter) of the resolved path, a newline, and the file
bytes. -/
def NewRC (fs : FS) (cwd : String) (sha : List Char → String) (path : String) :
    Option RC :=
  match fs.lstat (absPath cwd path) with
  | LstatResult.notFound =>
    some ⟨absPath cwd path, dirOf (absPath cwd path), false, ""⟩
  | LstatResult.ioError => none
  | LstatResult.found isLink =>
    match (if isLink then fs.evalSymlinks (absPath cwd path)
           else some (absPath cwd path)) with
    | none => none
    | some resolved =>
      match fs.readFile resolved with
      | none => none
      | some content =>
        some ⟨absPath cwd path, dirOf (absPath cwd path), true,
          sha (resolved.data ++ '\n' :: content)⟩

/-- C4 — RC content hash: whenever `NewRC` succeeds and SHA-256 never
returns the empty digest string, the returned RC has an empty content hash
exactly when the file does not exist; and for an existing file the hash is
SHA-256 of the resolved path, a newline, and the file bytes. -/
theorem c4_rc_content_hash (fs : FS) (cwd : String) (sha : List Char → String)
    (path : String) (rc : RC) (hsha : ∀ b, sha b ≠ "")
    (h : NewRC fs cwd sha path = some rc) :
    (rc.ContentHash = "" ↔ rc.Exists = false) ∧
    (rc.Exists = true →
      ∃ isLink resolved content,
        fs.lstat (absPath cwd path) = LstatResult.found isLink ∧
        (if isLink then fs.evalSymlinks (absPath cwd path)
         else some (absPath cwd path)) = some resolved ∧
        fs.readFile resolved = some content ∧
        rc.ContentHash = sha (resolved.data ++ '\n' :: content)) := by
  unfold NewRC at h
  cases hstat : fs.lstat (absPath cwd path) with
  | notFound =>
    rw [hstat] at h
    cases h
    exact ⟨by simp, by intro hx; cases hx⟩
  | ioError =>
    rw [hstat] at h
    cases h
  | found isLink =>
    rw [hstat] at h
    have h2 : (match (if isLink then fs.evalSymlinks (absPath cwd path)
          else some (absPath cwd path)) with
        | none => none
        | some resolved =>
          match fs.readFile resolved with
          | none => none
          | some content =>
            some (⟨absPath cwd path, dirOf (absPath cwd path), true,
              sha (resolved.data ++ '\n' :: content)⟩ : RC)) = some rc := h
    cases hres : (if isLink then fs.evalSymlinks (absPath cwd path)
        else some (absPath cwd path)) with
    | none =>
      rw [hres] at h2
      cases h2
    | some resolved =>
      rw [hres] at h2
      have h3 : (match fs.readFile resolved with
          | none => none
          | some content =>
            some (⟨absPath cwd path, dirOf (absPath cwd path), true,
              sha (resolved.data ++ '\n' :: content)⟩ : RC)) = some rc := h2
      cases hread : fs.readFile resolved with
      | none =>
        rw [hread] at h3
        cases h3
      | some content =>
        rw [hread] at h3
        cases h3
        constructor
        · simp [hsha (resolved.data ++ '\n' :: content)]
        · intro _
          exact ⟨isLink, resolved, content, rfl, hres, hread, rfl⟩

/-- Witness for C4 at a one-file filesystem holding `/h/.envrc` with
content `x` and a constant digest function. -/
theorem c4_rc_content_hash_witness :
    ((RC.ContentHash ⟨"/h/.envrc", "/h", true, "h"⟩ = "") ↔
      (RC.Exists ⟨"/h/.envrc", "/h", true, "h"⟩ = false)) ∧
    (RC.Exists ⟨"/h/.envrc", "/h", true, "h"⟩ = true →
      ∃ isLink resolved content,
        FS.lstat ⟨fun _ => LstatResult.found false, fun _ => none, fun _ => some ['x']⟩
            (absPath "/" "/h/.envrc") = LstatResult.found isLink ∧
        (if isLink then
          FS.evalSymlinks ⟨fun _ => LstatResult.found false, fun _ => none,
            fun _ => some ['x']⟩ (absPath "/" "/h/.envrc")
         else some (absPath "/" "/h/.envrc")) = some resolved ∧
        FS.readFile ⟨fun _ => LstatResult.found false, fun _ => none, fun _ => some ['x']⟩
            resolved = some content ∧
        RC.ContentHash ⟨"/h/.envrc", "/h", true, "h"⟩
          = (fun _ => "h") (resolved.data ++ '\n' :: content)) :=
  c4_rc_content_hash ⟨fun _ => LstatResult.found false, fun _ => none, fun _ => some ['x']⟩
    "/" (fun _ => "h") "/h/.envrc" ⟨"/h/.envrc", "/h", true, "h"⟩
    (fun b => by simp) (by decide)

/-! ### Chain discovery (internal/envrc/tree.go, `FindChain`) -/

/-- Render a canonical absolute path from its components.  Symlink-resolved
absolute paths, as produced by `filepath.Abs` plus `filepath.EvalSymlinks`,
are `/`-joined non-empty components free of `.` and `..`; the empty
component list is the filesystem root `/`. -/
def pathStr (comps : List String) : String :=
  if comps = [] then "/"
  else String.mk (comps.flatMap (fun comp => '/' :: comp.data))

set_option linter.unusedVariables false in
/-- The walk-up loop of `FindChain`: collect directories from the target
upward until the chain root is met (the result is reversed to root-first
order, modelled by appending on the way out).  Reaching the filesystem
root — where `filepath.Dir` is a fixed point — without meeting the chain
root is the "target is not under root" error. -/
def walkUp (root current : List String) : Option (List (List String)) :=
  if current = root then some [current]
  else if h0 : current = [] then none
  else
    match walkUp root current.dropLast with
    | none => none
    | some ds => some (ds ++ [current])
termination_by current.length
decreasing_by
  have hpos : 0 < current.length := List.length_pos.mpr h0
  simp [List.length_dropLast]
  omega

/-- `FindChain` from internal/envrc/tree.go, on resolved canonical paths
(the `filepath.Abs`/`filepath.EvalSymlinks` resolution of both arguments is
environment-dependent and modelled as already performed): fail unless the
rendered root is a string prefix of the rendered target (Go
`strings.HasPrefix`), then walk up from the target collecting directories
in root-first order. -/
def FindChain (root target : List String) : Option (List (List String)) :=
  if !((pathStr root).data.isPrefixOf (pathStr target).data) then none
  else walkUp root target

/-- `FindChain` builds one RC per collected directory at `<dir>/.envrc`
(`filepath.Join(dir, envrcName)`, which on canonical components appends the
`.envrc` component). -/
def FindChainPaths (root target : List String) : Option (List String) :=
  (FindChain root target).map (List.map (fun d => pathStr (d ++ [".envrc"])))

theorem pathStr_data_leading (r t : List String) (h : r <+: t) :
    (pathStr r).data.isPrefixOf (pathStr t).data = true := by
  rw [List.isPrefixOf_iff_prefix]
  by_cases hr : r = []
  · subst hr
    by_cases ht : t = []
    · subst ht
      exact List.prefix_refl _
    · cases t with
      | nil => exact absurd rfl ht
      | cons c cs =>
        show (pathStr []).data <+: (pathStr (c :: cs)).data
        rw [show pathStr [] = "/" by simp [pathStr]]
        rw [show pathStr (c :: cs)
              = String.mk ((c :: cs).flatMap (fun comp => '/' :: comp.data)) by
              simp [pathStr]]
        rw [List.flatMap_cons]
        exact ⟨c.data ++ cs.flatMap (fun comp => '/' :: comp.data), by simp⟩
  · rcases h with ⟨s, rfl⟩
    by_cases hs : s = []
    · subst hs
      simp [List.prefix_refl]
    · have hrs : r ++ s ≠ [] := by simp [hr]
      rw [show pathStr r = String.mk (r.flatMap (fun comp => '/' :: comp.data)) by
            simp [pathStr, hr]]
      rw [show pathStr (r ++ s)
            = String.mk ((r ++ s).flatMap (fun comp => '/' :: comp.data)) by
            simp [pathStr, hrs]]
      rw [List.flatMap_append]
      exact List.prefix_append _ _

theorem walkUp_spec : ∀ (n : Nat) (r c : List String), c.length ≤ n →
    ∀ l, walkUp r c = some l →
      l.head? = some r ∧ l.getLast? = some c ∧
      l.length + r.length = c.length + 1 ∧
      l.Chain' (fun a b => a = b.dropLast) ∧ r <+: c := by
  intro n
  induction n with
  | zero =>
    intro r c hc l h
    have hc0 : c = [] := List.length_eq_zero.mp (Nat.le_zero.mp hc)
    subst hc0
    rw [walkUp] at h
    by_cases h1 : ([] : List String) = r
    · rw [if_pos h1] at h
      cases h
      subst h1
      exact ⟨rfl, rfl, by simp, List.chain'_singleton _, List.prefix_refl _⟩
    · rw [if_neg h1, dif_pos rfl] at h
      cases h
  | succ n ih =>
    intro r c hc l h
    rw [walkUp] at h
    by_cases h1 : c = r
    · rw [if_pos h1] at h
      cases h
      subst h1
      refine ⟨rfl, rfl, ?_, List.chain'_singleton _, List.prefix_refl _⟩
      simp only [List.length_singleton]
      omega
    · rw [if_neg h1] at h
      by_cases h2 : c = []
      · rw [dif_pos h2] at h
        cases h
      · rw [dif_neg h2] at h
        cases hrec : walkUp r c.dropLast with
        | none =>
          rw [hrec] at h
          cases h
        | some ds =>
          rw [hrec] at h
          cases h
          have hpos : 0 < c.length := List.length_pos.mpr h2
          have hlen : c.dropLast.length ≤ n := by
            simp only [List.length_dropLast]
            omega
          rcases ih r c.dropLast hlen ds hrec with ⟨hh, hl, hlen2, hch, hpre⟩
          have hdsne : ds ≠ [] := by
            intro hds
            rw [hds] at hh
            cases hh
          refine ⟨?_, ?_, ?_, ?_, ?_⟩
          · rw [show (ds ++ [c]).head? = ds.head? by
                  cases ds with
                  | nil => exact absurd rfl hdsne
                  | cons a t => simp]
            exact hh
          · simp
          · simp only [List.length_append, List.length_singleton]
            simp only [List.length_dropLast] at hlen2
            omega
          · refine List.chain'_append.mpr ⟨hch, List.chain'_singleton _, ?_⟩
            intro x hx y hy
            simp at hy
            subst hy
            rw [hl] at hx
            simp at hx
            rw [hx]
          · exact hpre.trans (List.dropLast_prefix c)

theorem walkUp_isSome_of_under : ∀ (n : Nat) (r c : List String), c.length ≤ n →
    r <+: c → (walkUp r c).isSome = true := by
  intro n
  induction n with
  | zero =>
    intro r c hc hp
    have hc0 : c = [] := List.length_eq_zero.mp (Nat.le_zero.mp hc)
    subst hc0
    have hr : r = [] := List.prefix_nil.mp hp
    rw [walkUp]
    simp [hr]
  | succ n ih =>
    intro r c hc hp
    rw [walkUp]
    by_cases h1 : c = r
    · simp [h1]
    · rw [if_neg h1]
      have h2 : c ≠ [] := by
        intro hc0
        subst hc0
        exact h1 (List.prefix_nil.mp hp).symm
      rw [dif_neg h2]
      have hp' : r <+: c.dropLast := by
        rcases hp with ⟨s, rfl⟩
        have hs : s ≠ [] := by
          intro hs0
          subst hs0
          exact h1 (by simp)
        rw [List.dropLast_append_of_ne_nil _ hs]
        exact List.prefix_append _ _
      have hpos : 0 < c.length := List.length_pos.mpr h2
      have hlen : c.dropLast.length ≤ n := by
        simp only [List.length_dropLast]
        omega
      have hrec2 := ih r c.dropLast hlen hp'
      cases hrec : walkUp r c.dropLast with
      | none =>
        rw [hrec] at hrec2
        cases hrec2
      | some ds => simp [hrec]

/-- C7 — Chain discovery, on resolved canonical paths: `FindChain` fails
exactly when the target is not equal to or under the root; on success the
returned directory list starts at the root, ends at the target, has length
`target depth - root depth + 1` (so exactly 1 when root equals target),
each entry is the parent directory of the next, and the chain carries one
RC path `<dir>/.envrc` per directory. -/
theorem c7_find_chain :
    (∀ root target, FindChain root target = none ↔ ¬root <+: target) ∧
    (∀ root target l, FindChain root target = some l →
      l.head? = some root ∧ l.getLast? = some target ∧
      l.length + root.length = target.length + 1 ∧
      l.Chain' (fun a b => a = b.dropLast) ∧
      FindChainPaths root target
        = some (l.map (fun d => pathStr (d ++ [".envrc"])))) ∧
    (∀ root, FindChain root root = some [root]) := by
  refine ⟨?_, ?_, ?_⟩
  · intro root target
    constructor
    · intro h hp
      have hb := pathStr_data_leading root target hp
      unfold FindChain at h
      rw [hb] at h
      simp only [Bool.not_true, Bool.false_eq_true, if_false] at h
      have hsome := walkUp_isSome_of_under target.length root target (le_refl _) hp
      rw [h] at hsome
      cases hsome
    · intro hnp
      unfold FindChain
      cases hw : walkUp root target with
      | some l =>
        rcases walkUp_spec target.length root target (le_refl _) l hw with
          ⟨_, _, _, _, hp⟩
        exact absurd hp hnp
      | none =>
        by_cases hb : (pathStr root).data.isPrefixOf (pathStr target).data <;>
          simp [hb]
  · intro root target l h
    unfold FindChain at h
    by_cases hb : (pathStr root).data.isPrefixOf (pathStr target).data
    · have h2 : walkUp root target = some l := by
        rw [hb] at h
        simpa using h
      rcases walkUp_spec target.length root target (le_refl _) l h2 with
        ⟨ha, hb2, hc2, hd2, _⟩
      refine ⟨ha, hb2, hc2, hd2, ?_⟩
      unfold FindChainPaths FindChain
      rw [hb]
      simp [h2]
    · rw [show (pathStr root).data.isPrefixOf (pathStr target).data = false by
            revert hb
            cases (pathStr root).data.isPrefixOf (pathStr target).data <;> simp] at h
      simp at h
  · intro root
    unfold FindChain
    rw [pathStr_data_leading root root (List.prefix_refl _)]
    simp only [Bool.not_true, Bool.false_eq_true, if_false]
    rw [walkUp]
    simp

/-- Witness for C7 at root `/h` and target `/h/w` (and root `/h` equal to
target for the length-1 edge case). -/
theorem c7_find_chain_witness :
    List.head? [["h"], ["h", "w"]] = some ["h"] ∧
    List.getLast? [["h"], ["h", "w"]] = some ["h", "w"] ∧
    FindChain ["h"] ["h"] = some [["h"]] := by
  have h1 : walkUp ["h"] ["h", "w"] = some [["h"], ["h", "w"]] := by
    rw [walkUp]
    rw [if_neg (by decide), dif_neg (by decide)]
    rw [show (["h", "w"] : List String).dropLast = ["h"] from rfl]
    rw [walkUp]
    rw [if_pos rfl]
    rfl
  have h2 : FindChain ["h"] ["h", "w"] = some [["h"], ["h", "w"]] := by
    unfold FindChain
    rw [if_neg (by decide)]
    exact h1
  rcases c7_find_chain.2.1 ["h"] ["h", "w"] [["h"], ["h", "w"]] h2 with
    ⟨ha, hb, _, _, _⟩
  exact ⟨ha, hb, c7_find_chain.2.2 ["h"]⟩

end Cascade
